/-
Verification of the SDA repository's spectral-transform core.

The definitions below are a shallow embedding of the Python sources
`SDA.py` and `src/psa/core/sed_calculator.py`.  Machine floats are
modelled as real numbers, numpy arrays as Lean lists or index
functions, and fallible code as `Except String`.
-/
import Mathlib

open Real

set_option maxHeartbeats 1000000

/-! ### Real 3-vectors (numpy length-3 float arrays) -/

/-- A 3-component real vector, the model of a numpy length-3 array. -/
structure Vec3 where
  x : ℝ
  y : ℝ
  z : ℝ

namespace Vec3

/-- `np.dot` for 3-vectors. -/
noncomputable def dot (a b : Vec3) : ℝ := a.x * b.x + a.y * b.y + a.z * b.z

/-- `np.cross` for 3-vectors. -/
noncomputable def cross (a b : Vec3) : Vec3 :=
  ⟨a.y * b.z - a.z * b.y, a.z * b.x - a.x * b.z, a.x * b.y - a.y * b.x⟩

/-- Scalar multiplication of a 3-vector. -/
noncomputable def smul (c : ℝ) (a : Vec3) : Vec3 := ⟨c * a.x, c * a.y, c * a.z⟩

/-- `np.linalg.norm` for 3-vectors. -/
noncomputable def norm3 (a : Vec3) : ℝ := Real.sqrt (a.x ^ 2 + a.y ^ 2 + a.z ^ 2)

theorem ext_iff' {a b : Vec3} : a = b ↔ a.x = b.x ∧ a.y = b.y ∧ a.z = b.z := by
  constructor
  · rintro rfl; exact ⟨rfl, rfl, rfl⟩
  · rintro ⟨h1, h2, h3⟩; cases a; cases b; simp_all

end Vec3

/-! ### LatticeGeometry (`SEDCalculator.__init__`, sed_calculator.py lines 40-56)

`L1, L2, L3` are the rows of the trajectory box matrix; `a_i = L_i / n_i`;
`vol_prim = abs(dot(a1, cross(a2, a3)))`; `b_i = (2*pi/vol_prim) * cross(a_j, a_k)`
cyclically. -/

/-- Primitive vector `a = L / n` (`self.a1, self.a2, self.a3 = L1/nx, L2/ny, L3/nz`). -/
noncomputable def primVec (L : Vec3) (n : ℕ) : Vec3 := Vec3.smul (1 / (n : ℝ)) L

/-- The scalar triple product `a1 · (a2 × a3)`. -/
noncomputable def tripleProd (a1 a2 a3 : Vec3) : ℝ := Vec3.dot a1 (Vec3.cross a2 a3)

/-- `vol_prim = np.abs(np.dot(a1, np.cross(a2, a3)))`. -/
noncomputable def volPrim (a1 a2 a3 : Vec3) : ℝ := |tripleProd a1 a2 a3|

/-- `b1 = (2*np.pi/vol_prim) * np.cross(a2, a3)`. -/
noncomputable def recipB1 (a1 a2 a3 : Vec3) : Vec3 :=
  Vec3.smul (2 * π / volPrim a1 a2 a3) (Vec3.cross a2 a3)

/-- `b2 = (2*np.pi/vol_prim) * np.cross(a3, a1)`. -/
noncomputable def recipB2 (a1 a2 a3 : Vec3) : Vec3 :=
  Vec3.smul (2 * π / volPrim a1 a2 a3) (Vec3.cross a3 a1)

/-- `b3 = (2*np.pi/vol_prim) * np.cross(a1, a2)`. -/
noncomputable def recipB3 (a1 a2 a3 : Vec3) : Vec3 :=
  Vec3.smul (2 * π / volPrim a1 a2 a3) (Vec3.cross a1 a2)

/-- Selector for the three primitive vectors. -/
noncomputable def aVec (a1 a2 a3 : Vec3) : Fin 3 → Vec3
  | 0 => a1
  | 1 => a2
  | 2 => a3

/-- Selector for the three reciprocal vectors. -/
noncomputable def bVec (a1 a2 a3 : Vec3) : Fin 3 → Vec3
  | 0 => recipB1 a1 a2 a3
  | 1 => recipB2 a1 a2 a3
  | 2 => recipB3 a1 a2 a3

/-! ### Shared numeric helpers -/

/-- `np.linspace(a, b, n)`: `n` evenly spaced samples from `a` to `b` inclusive
(`[a]` when `n = 1`, `[]` when `n = 0`). -/
noncomputable def linspace (a b : ℝ) (n : ℕ) : List ℝ :=
  if n = 1 then [a]
  else (List.range n).map (fun i : ℕ => a + (b - a) * (i : ℝ) / ((n - 1 : ℕ) : ℝ))

/-- `np.fft.fftfreq(n, d)`: sample frequencies `[0, 1, ..., -n/2, ..., -1] / (n*d)`,
non-negative entries first. -/
noncomputable def fftfreq (n : ℕ) (d : ℝ) : List ℝ :=
  (List.range n).map (fun i => (if 2 * i < n then (i : ℝ) else (i : ℝ) - n) / (n * d))

/-- Split a list into consecutive chunks of size `max 1 s`; models the k-vector
chunk loop `k_vectors_3d[start_idx:end_idx]` of `calculate` (the caller clamps
`s ≥ 1`, so `max 1 s = s` there). -/
def chunkList (s : ℕ) : List α → List (List α)
  | [] => []
  | x :: xs => ((x :: xs).take (max 1 s)) :: chunkList s ((x :: xs).drop (max 1 s))
termination_by l => l.length
decreasing_by
  simp only [List.length_drop, List.length_cons]
  exact Nat.sub_lt (Nat.succ_pos _) (Nat.lt_of_lt_of_le Nat.zero_lt_one (Nat.le_max_left 1 s))

/-! ### Direction parsing (`parse_direction`, SDA.py lines 239-288)

The Python function dispatches on the runtime type of its argument; the
inductive below has one constructor per accepted shape (a string that parses
as a float is carried as its numeric value, `strNum`). -/

/-- The accepted direction specifications of `parse_direction`. -/
inductive DirSpec
  | num (deg : ℝ)                -- int/float: angle in degrees
  | strNum (deg : ℝ)             -- string convertible to float
  | axisName (s : String)        -- other string: legacy axis mapping
  | list1 (deg : ℝ)              -- singleton list: angle in degrees
  | list3 (a b c : ℝ)            -- 3-component vector
  | listOther (l : List ℝ)       -- list of any other length: error
  | dictAngle (deg : ℝ)          -- mapping with an 'angle' key
  | dictHKL (h k l : ℝ)          -- Miller-index-like mapping (h, k, l)

/-- Unit-circle vector for an angle in degrees:
`[cos(deg2rad θ), sin(deg2rad θ), 0.0]`. -/
noncomputable def angleVec (deg : ℝ) : Vec3 :=
  ⟨Real.cos (deg * π / 180), Real.sin (deg * π / 180), 0⟩

/-- `parse_direction` (SDA.py lines 239-288): resolve a direction
specification to a raw 3-vector; a near-zero result is rejected.  Note the
source does not normalize the vector here. -/
noncomputable def parseDirection : DirSpec → Except String Vec3
  | .num deg => validate (angleVec deg)
  | .strNum deg => validate (angleVec deg)
  | .axisName s =>
      if s.toLower = "x" then validate ⟨1, 0, 0⟩
      else if s.toLower = "y" then validate ⟨0, 1, 0⟩
      else if s.toLower = "z" then validate ⟨0, 0, 1⟩
      else .error "Unknown direction string"
  | .list1 deg => validate (angleVec deg)
  | .list3 a b c => validate ⟨a, b, c⟩
  | .listOther _ => .error "Direction vector must have 1 or 3 components"
  | .dictAngle deg => validate (angleVec deg)
  | .dictHKL h k l => validate ⟨h, k, l⟩
where
  /-- Common tail: `if np.linalg.norm(vec) < 1e-10: raise`. -/
  validate (v : Vec3) : Except String Vec3 :=
    if Vec3.norm3 v < 1e-10 then .error "Direction vector cannot be zero" else .ok v

/-! ### `SDCalculator.get_k_path` (SDA.py lines 316-333)

Normalizes the parsed direction, derives `k_max = bz_coverage * 2π/lattice_parameter`
(falling back to `|a1|` when no lattice parameter is given), and returns
linearly spaced magnitudes with `k_vectors = outer(k_points, dir_vector)`. -/

noncomputable def sdaGetKPath (a1 : Vec3) (direction : DirSpec) (bzCoverage : ℝ)
    (nK : ℕ) (latticeParameter : Option ℝ) : Except String (List ℝ × List Vec3) := do
  let dirVector ← parseDirection direction
  let dirUnit := Vec3.smul (1 / Vec3.norm3 dirVector) dirVector
  let latParam := latticeParameter.getD (Vec3.norm3 a1)
  let kMax := bzCoverage * (2 * π / latParam)
  let kPoints := linspace 0 kMax nK
  .ok (kPoints, kPoints.map (fun m => Vec3.smul m dirUnit))

/-! ### `SEDCalculator.get_k_path` (sed_calculator.py lines 86-125)

The direction argument is taken post-parse as a vector (the repository's
`psa.utils.helpers.parse_direction` is not among the provided sources; per the
spec it yields a canonical unit vector).  The reciprocal extent is the
provided-lattice-parameter value `2π/lat_param`, or the largest absolute
projection of the direction onto `b1, b2, b3`, or the fallback `2π/|a1|`. -/

/-- Reciprocal-space extent chosen by `get_k_path` (lines 91-118). -/
noncomputable def maxProjection (b1 b2 b3 kDirUnit : Vec3) : ℝ :=
  max (max |Vec3.dot kDirUnit b1| |Vec3.dot kDirUnit b2|) |Vec3.dot kDirUnit b3|

/-- Reciprocal-space extent chosen by `get_k_path` (lines 91-118). -/
noncomputable def sedRecipExtent (a1 b1 b2 b3 kDirUnit : Vec3)
    (latParam : Option ℝ) : Except String ℝ :=
  if latParam.isNone ∨ latParam.getD 0 ≤ 1e-6 then
    if 1e-6 < maxProjection b1 b2 b3 kDirUnit then .ok (maxProjection b1 b2 b3 kDirUnit)
    else if 1e-6 < Vec3.norm3 a1 then .ok (2 * π / Vec3.norm3 a1)
    else .error "Invalid/small lattice_param for k-path"
  else .ok (2 * π / latParam.getD 0)

/-- `get_k_path` magnitudes and vectors (lines 120-125).  For `n_k = 1` the
single magnitude is `k_max`, or `0.0` when `np.isclose(k_max, 0)`
(absolute tolerance `1e-8`). -/
noncomputable def sedGetKPath (a1 b1 b2 b3 kDirUnit : Vec3) (bzCoverage : ℝ)
    (nK : ℕ) (latParam : Option ℝ) : Except String (List ℝ × List Vec3) := do
  let recipExtent ← sedRecipExtent a1 b1 b2 b3 kDirUnit latParam
  let kMaxVal := bzCoverage * recipExtent
  if nK < 1 then .error "n_k (k-points) must be >= 1"
  else
    let kMags := if 1 < nK then linspace 0 kMaxVal nK
      else [if |kMaxVal| ≤ 1e-8 then 0 else kMaxVal]
    .ok (kMags, kMags.map (fun m => Vec3.smul m kDirUnit))

/-! ### Trajectory data model (spec section 3; consumed read-only)

Positions and velocities are total index functions `frame → atom → axis → ℝ`
(indices beyond the stated counts are irrelevant); atom types are a list of
integer labels whose length is the atom count. -/

/-- The trajectory entity consumed by the calculator. -/
structure Traj where
  nFrames : ℕ
  types : List ℤ
  pos : ℕ → ℕ → Fin 3 → ℝ
  vel : ℕ → ℕ → Fin 3 → ℝ
  dtPs : ℝ

/-- `traj.n_atoms`: the number of atoms. -/
def Traj.nAtoms (tr : Traj) : ℕ := tr.types.length

/-! ### Atom grouping (`SEDCalculator.calculate`, lines 208-266)

Basis selectors mirror the runtime-type dispatch of the Python code: a flat
list, a nested list-of-lists, a bare int (types only), or a 1-d array
(indices only).  Python atom indices are modelled as naturals; the source's
`grp_idx < 0` bounds check is subsumed by that choice. -/

/-- Accepted shapes of `basis_atom_types`. -/
inductive BasisTypes
  | flat (l : List ℤ)
  | nested (l : List (List ℤ))
  | single (t : ℤ)
deriving DecidableEq

/-- Accepted shapes of `basis_atom_indices`. -/
inductive BasisIdx
  | flat (l : List ℕ)
  | nested (l : List (List ℕ))
  | arr (l : List ℕ)
deriving DecidableEq

/-- Summation modes of `calculate`. -/
inductive SumMode
  | coherent
  | incoherent
deriving DecidableEq

/-- `np.where(np.isin(types, type_group))[0]`: indices of atoms whose type is
in `typeGroup`. -/
def typeIndices (types : List ℤ) (nAtoms : ℕ) (typeGroup : List ℤ) : List ℕ :=
  (List.range nAtoms).filter (fun i => types.getD i 0 ∈ typeGroup)

/-- Lines 215-227: `processed_basis_atom_types`.  A flat list of types becomes
one singleton group per type under `incoherent` and a single merged group
under `coherent`; an empty flat list is left unprocessed (empty). -/
def processTypeGroups (bt : BasisTypes) (mode : SumMode) : List (List ℤ) :=
  match bt with
  | .flat l =>
      if l = [] then []
      else if mode = .incoherent then l.map (fun t => [t]) else [l]
  | .nested l => l
  | .single t => [[t]]

/-- Lines 236-260: `processed_basis_atom_indices` (groups before bounds
checking; empty sublists are dropped). -/
def processIdxGroups (bi : BasisIdx) : List (List ℕ) :=
  match bi with
  | .flat l => if l = [] then [] else [l]
  | .nested l => (l.filter (fun g => ¬g = []))
  | .arr l => if l = [] then [] else [l]

/-- Lines 208-266: atom-group determination of `calculate`.  `basis_atom_types`
(when present) is used and `basis_atom_indices` is ignored with a warning;
type groups matching no atom are dropped; explicit index groups are
bounds-checked; when no group survives, all atoms form a single group. -/
def determineGroups (types : List ℤ) (nAtoms : ℕ) (bIdx : Option BasisIdx)
    (bTypes : Option BasisTypes) (mode : SumMode) :
    Except String (List (List ℕ)) := do
  let atomGroups : List (List ℕ) ←
    match bTypes with
    | some bt =>
        pure ((processTypeGroups bt mode).filterMap (fun tg =>
          let indices := typeIndices types nAtoms tg
          if indices = [] then none else some indices))
    | none =>
        match bIdx with
        | some bi => do
            let processed := processIdxGroups bi
            if processed.any (fun g => g.any (fun i => nAtoms ≤ i)) then
              throw "Atom indices in basis out of bounds."
            else
              pure (processed.filter (fun g => ¬g = []))
        | none => pure []
  if atomGroups = [] then
    pure [List.range nAtoms]
  else
    pure atomGroups

/-! ### SpaceTimeProjector (`_calculate_sed_for_group`, lines 58-84)

For a group of atoms and one k-vector, the complex spatial Fourier sum over
the group at each frame, followed by the temporal DFT (`np.fft.fft` along the
time axis) divided by the frame count.  The array is organised per k-vector:
a column is a function of (frequency index, polarization axis). -/

/-- Time-averaged position of atom `a` (`mean_pos_all`). -/
noncomputable def meanPos (tr : Traj) (a : ℕ) (ax : Fin 3) : ℝ :=
  (∑ t ∈ Finset.range tr.nFrames, tr.pos t a ax) / tr.nFrames

/-- Per-atom data series: displacement from the mean position when
`use_displacements` is set, else velocity. -/
noncomputable def dataFT (tr : Traj) (useDisp : Bool) (t a : ℕ) (ax : Fin 3) : ℝ :=
  if useDisp then tr.pos t a ax - meanPos tr a ax else tr.vel t a ax

/-- `k · r̄_a` with `r̄_a` the mean position of atom `a`. -/
noncomputable def kDotMean (tr : Traj) (k : Vec3) (a : ℕ) : ℝ :=
  k.x * meanPos tr a 0 + k.y * meanPos tr a 1 + k.z * meanPos tr a 2

/-- `sed_tk_pol_group[t, k, ax] = Σ_a data(t,a,ax) · exp(i k·r̄_a)` over the
group's atoms (lines 77-81). -/
noncomputable def sedTK (tr : Traj) (useDisp : Bool) (grp : List ℕ) (k : Vec3)
    (t : ℕ) (ax : Fin 3) : ℂ :=
  (grp.map (fun a =>
    (dataFT tr useDisp t a ax : ℂ) * Complex.exp (Complex.I * (kDotMean tr k a : ℝ)))).sum

/-- One column of `sed_wk_group` (line 83): temporal DFT of `sedTK` at
frequency index `w`, divided by the frame count. -/
noncomputable def sedCol (tr : Traj) (useDisp : Bool) (grp : List ℕ) (k : Vec3)
    (w : ℕ) (ax : Fin 3) : ℂ :=
  (∑ t ∈ Finset.range tr.nFrames,
    Complex.exp (-2 * (π : ℝ) * Complex.I * w * t / tr.nFrames) *
      sedTK tr useDisp grp k t ax) / tr.nFrames

/-! ### The SED result entity (spec section 3; `src/psa/core/sed.py` is not
among the provided sources, so the entity is modelled from the spec as a plain
record of the arrays `calculate` passes to it). -/

/-- The amplitude array: complex per-polarization columns (coherent) or real
polarization-summed intensity columns (incoherent), one column per k-vector,
with the explicit frequency-axis length of the numpy array. -/
inductive SedData
  | coh (nFreq : ℕ) (cols : List (ℕ → Fin 3 → ℂ))
  | incoh (nFreq : ℕ) (cols : List (ℕ → ℝ))

/-- Length of the frequency (first) axis of the amplitude array. -/
def SedData.freqLen : SedData → ℕ
  | .coh n _ => n
  | .incoh n _ => n

/-- Length of the k (second) axis of the amplitude array. -/
def SedData.kLen : SedData → ℕ
  | .coh _ c => c.length
  | .incoh _ c => c.length

/-- Modelled from the spec: the SED result entity (`src/psa/core/sed.py` is
missing from the sources); a record of the fields the `SED(...)` constructor
calls in `calculate` supply, with no further behaviour. -/
structure SEDEnt where
  sed : SedData
  freqs : List ℝ
  kPoints : List ℝ
  kVectors : List Vec3
  kGridShape : Option (ℕ × ℕ)
  isComplex : Bool

/-! ### `SEDCalculator.calculate` (lines 182-336) -/

/-- Lines 296-302: the atom set used by the coherent path — the deduplicated
sorted union (`np.unique(np.concatenate(...))`) for several groups, the group
itself for one, empty otherwise. -/
def unionGroups (groups : List (List ℕ)) : List ℕ :=
  if 1 < groups.length then (groups.flatten.dedup).mergeSort (· ≤ ·)
  else groups.headD []

/-- `calculate`: degenerate zero-frame/zero-atom early return (lines 193-203),
atom grouping, k-chunking (transparent reassembly of per-chunk slices into one
array), and coherent/incoherent summation.  The coherent path is taken
whenever `summation_mode == 'coherent'` or at most one group exists. -/
noncomputable def calculate (tr : Traj) (useDisp : Bool) (kPointsMags : List ℝ)
    (kVectors : List Vec3) (bIdx : Option BasisIdx) (bTypes : Option BasisTypes)
    (mode : SumMode) (kGridShape : Option (ℕ × ℕ)) (kChunkSize : ℕ) :
    Except String SEDEnt :=
  if tr.nFrames = 0 ∨ tr.nAtoms = 0 then
    .ok ⟨.coh 0 [], [], kPointsMags, kVectors, kGridShape, true⟩
  else do
    let groups ← determineGroups tr.types tr.nAtoms bIdx bTypes mode
    let freqs := fftfreq tr.nFrames tr.dtPs
    let s := if 0 < kVectors.length then min (max 1 kChunkSize) kVectors.length else 1
    let chunks := chunkList s kVectors
    if mode = .coherent ∨ groups.length ≤ 1 then
      let u := unionGroups groups
      let cols := (chunks.map (fun c => c.map (fun k =>
        if u = [] then (fun _ _ => 0) else sedCol tr useDisp u k))).flatten
      .ok ⟨.coh freqs.length cols, freqs, kPointsMags, kVectors, kGridShape, true⟩
    else
      let cols := (chunks.map (fun c => c.map (fun k => fun w =>
        (groups.map (fun g =>
          if g = [] then 0
          else ∑ ax : Fin 3, Complex.abs (sedCol tr useDisp g k w ax) ^ 2)).sum))).flatten
      .ok ⟨.incoh freqs.length cols, freqs, kPointsMags, kVectors, kGridShape, false⟩

/-! ### ChiralPhaseAnalyzer (`calculate_chiral_phase`, lines 338-350, mode "C") -/

/-- Python `x % (2π)` shifted: `(x + π) % (2*π) - π`, the wrap of line 347. -/
noncomputable def wrapPi (x : ℝ) : ℝ :=
  (x + π) - 2 * π * ⌊(x + π) / (2 * π)⌋ - π

/-- Line 348: fold values above `π/2` as `π - Δ` (second-quadrant fold). -/
noncomputable def foldQ2 (d : ℝ) : ℝ := if π / 2 < d then π - d else d

/-- Lines 348-349: the second-quadrant fold followed by the third-quadrant
fold `-π - Δ` of values below `-π/2` (the second mask is evaluated on the
once-folded array). -/
noncomputable def foldC (d : ℝ) : ℝ :=
  if foldQ2 d < -(π / 2) then -π - foldQ2 d else foldQ2 d

/-- Mode `"C"` of `calculate_chiral_phase`, one cell: wrapped then folded
difference of `np.angle` values. -/
noncomputable def chiralPhaseC (z1 z2 : ℂ) : ℝ :=
  foldC (wrapPi (Complex.arg z1 - Complex.arg z2))

/-- `calculate_chiral_phase(Z1, Z2, "C")` on (frequency × k) matrices:
shapes must match exactly; the phase is computed cell by cell. -/
noncomputable def chiralPhaseModeC (Z1 Z2 : List (List ℂ)) :
    Except String (List (List ℝ)) :=
  if Z1.length = Z2.length ∧ (Z1.zip Z2).all (fun p => p.1.length = p.2.length) then
    .ok ((Z1.zip Z2).map (fun p => (p.1.zip p.2).map (fun q => chiralPhaseC q.1 q.2)))
  else .error "Z1 and Z2 shapes must match for chiral phase."

/-! ### InverseReconstructor (`ised`, lines 373-538)

Only the displacement-field pipeline is embedded: grouping (lines 389-433),
the k-path query (436-437), the wiggle accumulation (439-499) and numeric
rescaling (517-531).  File output and plotting are external collaborators. -/

/-- Accepted shapes of `basis_atom_idx_ised` / `basis_atom_types_ised`
(a flat list or a list of lists; `None`/empty is the `Option`). -/
inductive IsedBasis (β : Type)
  | flat (l : List β)
  | nested (l : List (List β))

/-- Lines 389-433: iSED reconstruction groups.  Explicit indices win over
types (with a warning); per-type grouping makes one group per listed type;
with no basis all atoms form one group; empty groups are dropped except for
the all-atoms fallback. -/
def isedGroups (types : List ℤ) (nAtoms : ℕ) (bIdx : Option (IsedBasis ℕ))
    (bTypes : Option (IsedBasis ℤ)) : Except String (List (List ℕ)) :=
  match bIdx with
  | some (.nested gs) =>
      if gs = [] then isedGroupsFromTypes types nAtoms bTypes
      else if gs.any (fun g => g.any (fun i => nAtoms ≤ i)) then
        throw "Atom indices in group out of bounds."
      else
        pure (gs.filter (fun g => ¬g = []))
  | some (.flat l) =>
      if l = [] then isedGroupsFromTypes types nAtoms bTypes
      else if l.any (fun i => nAtoms ≤ i) then throw "Atom indices out of bounds."
      else pure [l]
  | none => isedGroupsFromTypes types nAtoms bTypes
where
  /-- Lines 408-429: the types branch and the all-atoms fallback. -/
  isedGroupsFromTypes (types : List ℤ) (nAtoms : ℕ)
      (bTypes : Option (IsedBasis ℤ)) : Except String (List (List ℕ)) :=
    match bTypes with
    | some (.nested tgs) =>
        if tgs = [] then pure [List.range nAtoms]
        else pure ((tgs.map (fun tg => typeIndices types nAtoms tg)).filter
          (fun g => ¬g = []))
    | some (.flat ts) =>
        if ts = [] then pure [List.range nAtoms]
        else pure ((ts.map (fun t => typeIndices types nAtoms [t])).filter
          (fun g => ¬g = []))
    | none => pure [List.range nAtoms]

/-- `np.argmin(np.abs(xs - target))`: index of the first element of `xs`
closest to `target` (`0` for an empty list, unused). -/
noncomputable def argminAbsDist (xs : List ℝ) (target : ℝ) : ℕ :=
  (List.range xs.length).foldl (fun best i =>
    if |xs.getD i 0 - target| < |xs.getD best 0 - target| then i else best) 0

/-- Lines 494-499, one group's contribution at frame `t`, atom `a`, axis
`ax`: `Re(A · exp(i·time_p[t] − i·k_actual·r̄_proj(a)))` for atoms of the
group, zero otherwise; `A` is the matched complex amplitude of the group's
coherent SED, `time_p[t] = 2πt/n_recon_frames`. -/
noncomputable def isedGroupWiggle (tr : Traj) (kDirUnit : Vec3) (kMags : List ℝ)
    (kVecs : List Vec3) (kTarget wTarget : ℝ) (nReconFrames : ℕ) (grp : List ℕ)
    (sed : SEDEnt) (t a : ℕ) (ax : Fin 3) : ℝ :=
  if a ∈ grp then
    let kMatchIdx := argminAbsDist kMags kTarget
    let kActual := kMags.getD kMatchIdx 0
    let wMatchIdx := argminAbsDist sed.freqs wTarget
    let amp : ℂ := match sed.sed with
      | .coh _ cols => (cols.getD kMatchIdx (fun _ _ => 0)) wMatchIdx ax
      | .incoh _ _ => 0
    let posProj := Vec3.dot ⟨meanPos tr a 0, meanPos tr a 1, meanPos tr a 2⟩ kDirUnit
    (amp * Complex.exp (Complex.I * (2 * (π : ℝ) * t / nReconFrames : ℝ) -
      Complex.I * (kActual * posProj : ℝ))).re
  else 0

/-- Lines 451-499: the unscaled wiggle buffer, accumulated additively over
the reconstruction groups (each group's SED is a coherent `calculate`
restricted to that group). -/
noncomputable def isedRawWiggles (tr : Traj) (kDirUnit : Vec3) (kMags : List ℝ)
    (kVecs : List Vec3) (kTarget wTarget : ℝ) (nReconFrames : ℕ)
    (groups : List (List ℕ)) (seds : List SEDEnt) (t a : ℕ) (ax : Fin 3) : ℝ :=
  ((groups.zip seds).map (fun p =>
    isedGroupWiggle tr kDirUnit kMags kVecs kTarget wTarget nReconFrames
      p.1 p.2 t a ax)).sum

/-- Lines 515-531, numeric `rescale_factor` branch: multiply the wiggles of
the reconstructed atoms (`np.unique` of the concatenated groups) by the
factor. -/
noncomputable def isedRescale (factor : ℝ) (groups : List (List ℕ))
    (raw : ℕ → ℕ → Fin 3 → ℝ) : ℕ → ℕ → Fin 3 → ℝ :=
  fun t a ax =>
    if (groups.flatten.dedup).mergeSort (· ≤ ·) = [] then raw t a ax
    else if a ∈ (groups.flatten.dedup).mergeSort (· ≤ ·) then factor * raw t a ax
    else raw t a ax

/-- `ised` with a numeric `rescale_factor`, observed through its reconstructed
displacement field `wiggles[:, :, :3]` (the types channel and the dump/plot
collaborators are outside the core).  Errors carry the raised validation
messages; the "no reconstruction" abort (lines 431-433, 510-512) is an
error as well since no field is produced. -/
noncomputable def isedField (tr : Traj) (useDisp : Bool) (kDirUnit : Vec3)
    (kTarget wTarget : ℝ) (charLenKPath : ℝ) (nkOnPath : ℕ) (bzCovIsed : ℝ)
    (bIdx : Option (IsedBasis ℕ)) (bTypes : Option (IsedBasis ℤ))
    (rescaleFactor : ℝ) (nReconFrames : ℕ)
    (b1 b2 b3 geomA1 : Vec3) : Except String (ℕ → ℕ → Fin 3 → ℝ) := do
  let groups ← isedGroups tr.types tr.nAtoms bIdx bTypes
  if groups = [] then throw "iSED: No atom groups for reconstruction."
  else do
    let (kMags, kVecs) ← sedGetKPath geomA1 b1 b2 b3 kDirUnit bzCovIsed nkOnPath
      (some charLenKPath)
    let seds ← (groups.filter (fun g => ¬g = [])).mapM (fun g =>
      calculate tr useDisp kMags kVecs (some (.arr g)) none .coherent none 500)
    if (groups.filter (fun g => ¬g = [])) = [] then
      throw "iSED: No reconstruction performed."
    else
      pure (isedRescale rescaleFactor groups
        (isedRawWiggles tr kDirUnit kMags kVecs kTarget wTarget nReconFrames
          (groups.filter (fun g => ¬g = [])) seds))

/-! ## Theorems -/

/-! ### Vector algebra helpers -/

theorem dot_smul_left (c : ℝ) (v w : Vec3) :
    Vec3.dot (Vec3.smul c v) w = c * Vec3.dot v w := by
  simp only [Vec3.dot, Vec3.smul]; ring

theorem cross_dot_left (a b : Vec3) : Vec3.dot (Vec3.cross a b) a = 0 := by
  simp only [Vec3.dot, Vec3.cross]; ring

theorem cross_dot_right (a b : Vec3) : Vec3.dot (Vec3.cross a b) b = 0 := by
  simp only [Vec3.dot, Vec3.cross]; ring

theorem cross23_dot_a1 (a1 a2 a3 : Vec3) :
    Vec3.dot (Vec3.cross a2 a3) a1 = tripleProd a1 a2 a3 := by
  simp only [Vec3.dot, Vec3.cross, tripleProd]; ring

theorem cross31_dot_a2 (a1 a2 a3 : Vec3) :
    Vec3.dot (Vec3.cross a3 a1) a2 = tripleProd a1 a2 a3 := by
  simp only [Vec3.dot, Vec3.cross, tripleProd]; ring

theorem cross12_dot_a3 (a1 a2 a3 : Vec3) :
    Vec3.dot (Vec3.cross a1 a2) a3 = tripleProd a1 a2 a3 := by
  simp only [Vec3.dot, Vec3.cross, tripleProd]; ring

theorem tripleProd_cyc (a1 a2 a3 : Vec3) :
    tripleProd a2 a3 a1 = tripleProd a1 a2 a3 := by
  simp only [Vec3.dot, Vec3.cross, tripleProd]; ring

theorem tripleProd_cyc' (a1 a2 a3 : Vec3) :
    tripleProd a3 a1 a2 = tripleProd a1 a2 a3 := by
  simp only [Vec3.dot, Vec3.cross, tripleProd]; ring

/-- Core duality computation behind the reciprocal construction, for a
positively oriented primitive cell. -/
theorem recip_dual_of_pos {a1 a2 a3 : Vec3} (h : 0 < tripleProd a1 a2 a3) :
    ∀ i j : Fin 3, Vec3.dot (bVec a1 a2 a3 i) (aVec a1 a2 a3 j) =
      if i = j then 2 * π else 0 := by
  have hA : volPrim a1 a2 a3 = tripleProd a1 a2 a3 := abs_of_pos h
  have hT : tripleProd a1 a2 a3 ≠ 0 := ne_of_gt h
  intro i j
  fin_cases i <;> fin_cases j <;>
    simp only [bVec, aVec, recipB1, recipB2, recipB3, hA, dot_smul_left,
      cross_dot_left, cross_dot_right, cross23_dot_a1, cross31_dot_a2,
      cross12_dot_a3, tripleProd_cyc, tripleProd_cyc', Fin.mk_one, Fin.isValue,
      mul_zero, Fin.zero_eta, if_true, if_false] <;>
    first
      | rw [div_mul_cancel₀ _ hT]
      | simp

/-- C1 (amended): for a positively oriented non-degenerate box (positive
scalar triple product of the derived primitive vectors) and positive
supercell counts, the reciprocal vectors of `SEDCalculator.__init__` satisfy
`b_i · a_j = 2π δ_ij`.  (For a negatively oriented box the diagonal value is
`-2π`, see the counterexample.) -/
theorem claim_c1_reciprocal_duality (L1 L2 L3 : Vec3) (nx ny nz : ℕ)
    (hx : 0 < nx) (hy : 0 < ny) (hz : 0 < nz)
    (hpos : 0 < tripleProd (primVec L1 nx) (primVec L2 ny) (primVec L3 nz)) :
    ∀ i j : Fin 3,
      Vec3.dot (bVec (primVec L1 nx) (primVec L2 ny) (primVec L3 nz) i)
        (aVec (primVec L1 nx) (primVec L2 ny) (primVec L3 nz) j) =
      if i = j then 2 * π else 0 :=
  recip_dual_of_pos hpos

/-- C1 counterexample: the valid, non-degenerate (but negatively oriented)
box with rows `(1,0,0), (0,1,0), (0,0,-1)` and `nx = ny = nz = 1` passes the
constructor's validity checks (`|a_i| ≥ 1e-9`, `vol_prim` not close to zero)
yet gives `b1 · a1 = -2π ≠ 2π`. -/
theorem claim_c1_counterexample :
    Vec3.dot (recipB1 (primVec ⟨1,0,0⟩ 1) (primVec ⟨0,1,0⟩ 1) (primVec ⟨0,0,-1⟩ 1))
      (primVec ⟨1,0,0⟩ 1) = -(2 * π) ∧
    -(2 * π) ≠ 2 * π ∧
    (1e-9 : ℝ) ≤ Vec3.norm3 (primVec ⟨1,0,0⟩ 1) ∧
    (1e-9 : ℝ) ≤ Vec3.norm3 (primVec ⟨0,1,0⟩ 1) ∧
    (1e-9 : ℝ) ≤ Vec3.norm3 (primVec ⟨0,0,-1⟩ 1) ∧
    (1e-8 : ℝ) < volPrim (primVec ⟨1,0,0⟩ 1) (primVec ⟨0,1,0⟩ 1) (primVec ⟨0,0,-1⟩ 1) := by
  have h1 : primVec ⟨1,0,0⟩ 1 = (⟨1,0,0⟩ : Vec3) := by
    simp [primVec, Vec3.smul]
  have h2 : primVec ⟨0,1,0⟩ 1 = (⟨0,1,0⟩ : Vec3) := by
    simp [primVec, Vec3.smul]
  have h3 : primVec ⟨0,0,-1⟩ 1 = (⟨0,0,-1⟩ : Vec3) := by
    simp [primVec, Vec3.smul]
  rw [h1, h2, h3]
  have hvol : volPrim (⟨1,0,0⟩ : Vec3) ⟨0,1,0⟩ ⟨0,0,-1⟩ = 1 := by
    simp [volPrim, tripleProd, Vec3.dot, Vec3.cross]
  refine ⟨?_, ?_, ?_, ?_, ?_, ?_⟩
  · simp only [recipB1, hvol, Vec3.smul, Vec3.cross, Vec3.dot]
    norm_num
  · intro h
    have := Real.pi_pos
    nlinarith
  · have hn : Vec3.norm3 (⟨1,0,0⟩ : Vec3) = 1 := by
      simp [Vec3.norm3]
    rw [hn]; norm_num
  · have hn : Vec3.norm3 (⟨0,1,0⟩ : Vec3) = 1 := by
      simp [Vec3.norm3]
    rw [hn]; norm_num
  · have hn : Vec3.norm3 (⟨0,0,-1⟩ : Vec3) = 1 := by
      simp [Vec3.norm3]
    rw [hn]; norm_num
  · rw [hvol]; norm_num

/-- C1 witness: the amended theorem applied to the identity box with
`nx = ny = nz = 1`. -/
theorem claim_c1_witness :
    Vec3.dot (bVec (primVec ⟨1,0,0⟩ 1) (primVec ⟨0,1,0⟩ 1) (primVec ⟨0,0,1⟩ 1) 0)
      (aVec (primVec ⟨1,0,0⟩ 1) (primVec ⟨0,1,0⟩ 1) (primVec ⟨0,0,1⟩ 1) 0) =
      if (0 : Fin 3) = 0 then 2 * π else 0 :=
  claim_c1_reciprocal_duality ⟨1,0,0⟩ ⟨0,1,0⟩ ⟨0,0,1⟩ 1 1 1 (by decide) (by decide)
    (by decide)
    (by
      simp only [primVec, tripleProd, Vec3.dot, Vec3.cross, Vec3.smul]
      norm_num) 0 0

/-! ### Chiral phase range (C7) -/

theorem wrapPi_bounds (x : ℝ) : -π ≤ wrapPi x ∧ wrapPi x < π := by
  have h2pi : (0:ℝ) < 2 * π := by positivity
  have h1 : (⌊(x + π) / (2 * π)⌋ : ℝ) ≤ (x + π) / (2 * π) := Int.floor_le _
  have h2 : (x + π) / (2 * π) < ⌊(x + π) / (2 * π)⌋ + 1 := Int.lt_floor_add_one _
  have h1' : (⌊(x + π) / (2 * π)⌋ : ℝ) * (2 * π) ≤ x + π := by
    have := mul_le_mul_of_nonneg_right h1 (le_of_lt h2pi)
    rwa [div_mul_cancel₀ _ (ne_of_gt h2pi)] at this
  have h2' : x + π < ((⌊(x + π) / (2 * π)⌋ : ℝ) + 1) * (2 * π) := by
    have := mul_lt_mul_of_pos_right h2 h2pi
    rwa [div_mul_cancel₀ _ (ne_of_gt h2pi)] at this
  unfold wrapPi
  constructor <;> nlinarith

theorem foldC_bounds {d : ℝ} (h1 : -π ≤ d) (h2 : d < π) :
    -(π / 2) ≤ foldC d ∧ foldC d ≤ π / 2 := by
  have hπ : (0:ℝ) < π := Real.pi_pos
  unfold foldC foldQ2
  split_ifs with ha hb hb <;> constructor <;> linarith

theorem chiralPhaseC_bounds (z1 z2 : ℂ) :
    -(π / 2) ≤ chiralPhaseC z1 z2 ∧ chiralPhaseC z1 z2 ≤ π / 2 := by
  have := wrapPi_bounds (Complex.arg z1 - Complex.arg z2)
  exact foldC_bounds this.1 this.2

/-- C7 (amended): every element of the mode-"C" chiral phase lies in the
CLOSED interval `[-π/2, π/2]`.  (The lower endpoint is attained, see the
counterexample, so the claimed half-open interval `(-π/2, π/2]` is wrong.) -/
theorem claim_c7_mode_c_range (Z1 Z2 : List (List ℂ)) (res : List (List ℝ))
    (h : chiralPhaseModeC Z1 Z2 = .ok res) :
    ∀ row ∈ res, ∀ v ∈ row, -(π / 2) ≤ v ∧ v ≤ π / 2 := by
  intro row hrow v hv
  rw [chiralPhaseModeC] at h
  split_ifs at h with hc
  simp only [Except.ok.injEq] at h
  subst h
  simp only [List.mem_map] at hrow
  obtain ⟨p, _, rfl⟩ := hrow
  simp only [List.mem_map] at hv
  obtain ⟨q, _, rfl⟩ := hv
  exact chiralPhaseC_bounds q.1 q.2

theorem wrapPi_zero : wrapPi 0 = 0 := by
  unfold wrapPi
  have e : (0 + π) / (2 * π) = 1 / 2 := by
    rw [zero_add]
    rw [div_eq_iff (by positivity)]
    ring
  rw [e]
  have : ⌊(1:ℝ) / 2⌋ = 0 := by norm_num
  rw [this]
  ring

theorem foldC_zero : foldC 0 = 0 := by
  have hπ : (0:ℝ) < π := Real.pi_pos
  unfold foldC foldQ2
  split_ifs with ha hb hb <;> first | rfl | linarith

theorem wrapPi_neg_half_pi : wrapPi (-(π / 2)) = -(π / 2) := by
  unfold wrapPi
  have e : (-(π / 2) + π) / (2 * π) = 1 / 4 := by
    rw [div_eq_iff (by positivity)]
    ring
  rw [e]
  have : ⌊(1:ℝ) / 4⌋ = 0 := by norm_num
  rw [this]
  ring

theorem chiralPhaseC_one_I : chiralPhaseC 1 Complex.I = -(π / 2) := by
  have hπ : (0:ℝ) < π := Real.pi_pos
  unfold chiralPhaseC
  rw [Complex.arg_one, Complex.arg_I, zero_sub, wrapPi_neg_half_pi]
  unfold foldC foldQ2
  split_ifs with ha hb hb <;> first | rfl | linarith

/-- C7 counterexample: for `Z1 = [[1]]`, `Z2 = [[i]]` the mode-"C" output is
exactly `-π/2`, violating the claimed strict lower bound `-π/2 < value`. -/
theorem claim_c7_counterexample :
    chiralPhaseModeC [[1]] [[Complex.I]] = .ok [[-(π / 2)]] ∧
    ¬ (-(π / 2) < -(π / 2)) := by
  constructor
  · rw [chiralPhaseModeC]
    rw [if_pos (by simp)]
    simp [chiralPhaseC_one_I]
  · exact lt_irrefl _

/-- C7 witness: the amended range theorem applied at `Z1 = Z2 = [[1]]`, whose
output is `[[0]]`, evaluated at the single cell. -/
theorem claim_c7_witness : -(π / 2) ≤ (0:ℝ) ∧ (0:ℝ) ≤ π / 2 :=
  claim_c7_mode_c_range [[1]] [[1]] [[0]]
    (by
      rw [chiralPhaseModeC]
      rw [if_pos (by simp)]
      simp only [List.zip_cons_cons, List.zip_nil_right, List.map_cons, List.map_nil,
        Except.ok.injEq]
      rw [chiralPhaseC]
      rw [sub_self, wrapPi_zero, foldC_zero])
    [0] (List.mem_singleton.mpr rfl) 0 (List.mem_singleton.mpr rfl)

/-! ### Atom grouping precedence and mode dependence (C4, C10) -/

/-- C4 (amended): when both `basis_atom_indices` and `basis_atom_types` are
supplied to `calculate`, it is `basis_atom_types` that takes precedence: the
resulting groups are exactly those obtained by supplying only
`basis_atom_types` (the conflict warning is a log-only side effect outside the
model).  The claim's statement that the explicit indices win is refuted by
the counterexample. -/
theorem claim_c4_types_precedence (types : List ℤ) (nAtoms : ℕ) (bi : BasisIdx)
    (bt : BasisTypes) (mode : SumMode) :
    determineGroups types nAtoms (some bi) (some bt) mode =
    determineGroups types nAtoms none (some bt) mode := rfl

/-- C4 counterexample: two atoms of types `1, 2`; explicit indices `[0]` and
types `[2]` both supplied.  The result is the type-derived group `[[1]]`
(atom index 1, the atom of type 2), not the index-derived group `[[0]]`. -/
theorem claim_c4_counterexample :
    determineGroups [1, 2] 2 (some (.flat [0])) (some (.flat [2])) .coherent =
      .ok [[1]] ∧
    determineGroups [1, 2] 2 (some (.flat [0])) none .coherent = .ok [[0]] ∧
    ([[1]] : List (List ℕ)) ≠ [[0]] :=
  ⟨rfl, rfl, by decide⟩

/-- C4 witness: the precedence theorem holds at the counterexample's input
(no propositional hypotheses; instantiation shown for concreteness). -/
theorem claim_c4_witness :
    determineGroups [1, 2] 2 (some (.flat [0])) (some (.flat [2])) .coherent =
    determineGroups [1, 2] 2 none (some (.flat [2])) .coherent :=
  claim_c4_types_precedence [1, 2] 2 (.flat [0]) (.flat [2]) .coherent

theorem filterMap_typeGroups_of_nonempty (types : List ℤ) (nAtoms : ℕ) :
    ∀ l : List ℤ, (∀ t ∈ l, typeIndices types nAtoms [t] ≠ []) →
      ((l.map (fun t => [t])).filterMap (fun tg =>
        let indices := typeIndices types nAtoms tg
        if indices = [] then none else some indices)) =
      l.map (fun t => typeIndices types nAtoms [t]) := by
  intro l
  induction l with
  | nil => intro _; rfl
  | cons t ts ih =>
      intro h
      have ht : typeIndices types nAtoms [t] ≠ [] := h t (List.mem_cons_self t ts)
      simp only [List.map_cons, List.filterMap_cons, if_neg ht]
      rw [ih (fun u hu => h u (List.mem_cons_of_mem t hu))]

theorem typeIndices_mono (types : List ℤ) (nAtoms : ℕ) {t : ℤ} {l : List ℤ}
    (ht : t ∈ l) (i : ℕ) (hi : i ∈ typeIndices types nAtoms [t]) :
    i ∈ typeIndices types nAtoms l := by
  simp only [typeIndices, List.mem_filter, List.mem_range] at hi ⊢
  refine ⟨hi.1, ?_⟩
  have := hi.2
  simp only [List.mem_singleton, decide_eq_true_eq] at this
  simp only [decide_eq_true_eq]
  exact this ▸ ht

/-- C10: a flat `basis_atom_types` list (each listed type matching at least
one atom) groups the atoms per-type under `incoherent` but as the single
merged group of all listed types under `coherent` — the same selector denotes
different groupings in the two modes. -/
theorem determineGroups_some_types (types : List ℤ) (nAtoms : ℕ)
    (bi : Option BasisIdx) (bt : BasisTypes) (mode : SumMode) :
    determineGroups types nAtoms bi (some bt) mode =
      (let gs := (processTypeGroups bt mode).filterMap (fun tg =>
        let indices := typeIndices types nAtoms tg
        if indices = [] then none else some indices)
       if gs = [] then .ok [List.range nAtoms] else .ok gs) := rfl

theorem claim_c10_flat_types_mode_dependence (types : List ℤ) (nAtoms : ℕ)
    (bi : Option BasisIdx) (l : List ℤ) (hne : l ≠ [])
    (hmatch : ∀ t ∈ l, typeIndices types nAtoms [t] ≠ []) :
    determineGroups types nAtoms bi (some (.flat l)) .incoherent =
      .ok (l.map (fun t => typeIndices types nAtoms [t])) ∧
    determineGroups types nAtoms bi (some (.flat l)) .coherent =
      .ok [typeIndices types nAtoms l] := by
  obtain ⟨t0, hl⟩ := List.exists_mem_of_ne_nil l hne
  have hmerged : typeIndices types nAtoms l ≠ [] := by
    intro hempty
    obtain ⟨i, hi⟩ := List.exists_mem_of_ne_nil _ (hmatch t0 hl)
    exact absurd (hempty ▸ typeIndices_mono types nAtoms hl i hi) (List.not_mem_nil i)
  constructor
  · rw [determineGroups_some_types]
    have hpt : processTypeGroups (.flat l) .incoherent = l.map (fun t => [t]) := by
      simp [processTypeGroups, hne]
    rw [hpt, filterMap_typeGroups_of_nonempty types nAtoms l hmatch]
    have hmapne : l.map (fun t => typeIndices types nAtoms [t]) ≠ [] := by
      simpa [List.map_eq_nil_iff] using hne
    simp only [if_neg hmapne]
  · rw [determineGroups_some_types]
    have hpt : processTypeGroups (.flat l) .coherent = [l] := by
      simp [processTypeGroups, hne]
    rw [hpt]
    simp only [List.filterMap_cons, List.filterMap_nil]
    rw [if_neg hmerged]
    rw [if_neg (by simp)]

/-- C10 witness: the mode-dependence theorem at types `[1, 2]` over two atoms
of types `1` and `2`. -/
theorem claim_c10_witness :
    ([1, 2] : List ℤ) ≠ [] ∧
    determineGroups [1, 2] 2 none (some (.flat [1, 2])) .incoherent =
      .ok ([1, 2].map (fun t => typeIndices [1, 2] 2 [t])) ∧
    determineGroups [1, 2] 2 none (some (.flat [1, 2])) .coherent =
      .ok [typeIndices [1, 2] 2 [1, 2]] := by
  have h := claim_c10_flat_types_mode_dependence [1, 2] 2 none [1, 2]
    (by decide) (by decide)
  exact ⟨by decide, h.1, h.2⟩

/-! ### K-chunk transparency (C2) -/

theorem chunkList_flatten (s : ℕ) : ∀ l : List α, (chunkList s l).flatten = l
  | [] => by simp [chunkList]
  | x :: xs => by
      rw [chunkList, List.flatten_cons,
        chunkList_flatten s ((x :: xs).drop (max 1 s)), List.take_append_drop]
termination_by l => l.length
decreasing_by
  simp only [List.length_drop, List.length_cons]
  exact Nat.sub_lt (Nat.succ_pos _) (Nat.lt_of_lt_of_le Nat.zero_lt_one (Nat.le_max_left 1 s))

theorem chunkList_map_flatten (s : ℕ) (l : List α) (f : α → β) :
    ((chunkList s l).map (List.map f)).flatten = l.map f := by
  rw [← List.map_flatten, chunkList_flatten]

/-- C2: the SED returned by `calculate` does not depend on `k_chunk_size`:
any chunk size `c ≥ 1` produces exactly the result of processing all
k-vectors in a single chunk (chunk size = number of k-vectors). -/
theorem claim_c2_chunk_invariance (tr : Traj) (useDisp : Bool)
    (kPointsMags : List ℝ) (kVectors : List Vec3) (bIdx : Option BasisIdx)
    (bTypes : Option BasisTypes) (mode : SumMode) (kGridShape : Option (ℕ × ℕ))
    (c : ℕ) (hc : 1 ≤ c) :
    calculate tr useDisp kPointsMags kVectors bIdx bTypes mode kGridShape c =
    calculate tr useDisp kPointsMags kVectors bIdx bTypes mode kGridShape
      kVectors.length := by
  rw [calculate, calculate]
  split_ifs with hdeg hlen
  · rfl
  · apply bind_congr
    intro groups
    split_ifs with hmode
    · simp only [Except.ok.injEq, SEDEnt.mk.injEq, SedData.coh.injEq]
      rw [chunkList_map_flatten, chunkList_map_flatten]
      simp
    · simp only [Except.ok.injEq, SEDEnt.mk.injEq, SedData.incoh.injEq]
      rw [chunkList_map_flatten, chunkList_map_flatten]
      simp
  · rfl

/-- C2 witness: chunk invariance at a concrete 1-frame, 1-atom trajectory
with two k-vectors and chunk size 1. -/
theorem claim_c2_witness :
    calculate ⟨1, [1], fun _ _ _ => 0, fun _ _ _ => 0, 1⟩ false [0, 1]
      [⟨0,0,0⟩, ⟨1,0,0⟩] none none .coherent none 1 =
    calculate ⟨1, [1], fun _ _ _ => 0, fun _ _ _ => 0, 1⟩ false [0, 1]
      [⟨0,0,0⟩, ⟨1,0,0⟩] none none .coherent none
      ([⟨0,0,0⟩, (⟨1,0,0⟩ : Vec3)] : List Vec3).length :=
  claim_c2_chunk_invariance _ false _ _ none none .coherent none 1 (by decide)

/-! ### Single-group coherent/incoherent coincidence (C3) -/

theorem exceptOkBind {ε α β : Type} (x : α) (f : α → Except ε β) :
    (Except.ok x : Except ε α) >>= f = f x := rfl

/-- C3: when the basis selection yields exactly one atom group (under both
modes), `calculate` returns the SAME result for `summation_mode='incoherent'`
and `'coherent'`: the coherent complex path is used unconditionally
(`is_complex = true` on the incoherent-mode result), so the polarization-
summed power of the two results agrees at every (frequency, k) index. -/
theorem claim_c3_single_group (tr : Traj) (useDisp : Bool) (kPointsMags : List ℝ)
    (kVectors : List Vec3) (bIdx : Option BasisIdx) (bTypes : Option BasisTypes)
    (kGridShape : Option (ℕ × ℕ)) (c : ℕ) (groups : List (List ℕ))
    (hinc : determineGroups tr.types tr.nAtoms bIdx bTypes .incoherent = .ok groups)
    (hcoh : determineGroups tr.types tr.nAtoms bIdx bTypes .coherent = .ok groups)
    (hlen : groups.length = 1) :
    calculate tr useDisp kPointsMags kVectors bIdx bTypes .incoherent kGridShape c =
      calculate tr useDisp kPointsMags kVectors bIdx bTypes .coherent kGridShape c ∧
    ∀ res, calculate tr useDisp kPointsMags kVectors bIdx bTypes .incoherent
      kGridShape c = .ok res → res.isComplex = true := by
  have heq : calculate tr useDisp kPointsMags kVectors bIdx bTypes .incoherent
      kGridShape c =
      calculate tr useDisp kPointsMags kVectors bIdx bTypes .coherent kGridShape c := by
    rw [calculate, calculate]
    split_ifs with hdeg hl <;>
      first
        | rfl
        | (rw [hinc, hcoh, exceptOkBind, exceptOkBind]
           simp only
           split_ifs <;> first | rfl | simp_all)
  refine ⟨heq, fun res hres => ?_⟩
  rw [heq, calculate] at hres
  split_ifs at hres with hdeg <;>
    first
      | (simp only [Except.ok.injEq] at hres; subst hres; rfl)
      | (rw [hcoh, exceptOkBind] at hres
         simp only at hres
         split_ifs at hres <;>
           first
             | (simp only [Except.ok.injEq] at hres; subst hres; rfl)
             | simp_all)

/-- C3 witness: single explicit index group `[0]` on a 1-frame, 1-atom
trajectory; both modes give the same result. -/
theorem claim_c3_witness :
    calculate ⟨1, [1], fun _ _ _ => 0, fun _ _ _ => 0, 1⟩ false [0] [⟨1,0,0⟩]
      (some (.flat [0])) none .incoherent none 500 =
      calculate ⟨1, [1], fun _ _ _ => 0, fun _ _ _ => 0, 1⟩ false [0] [⟨1,0,0⟩]
        (some (.flat [0])) none .coherent none 500 :=
  (claim_c3_single_group ⟨1, [1], fun _ _ _ => 0, fun _ _ _ => 0, 1⟩ false [0]
    [⟨1,0,0⟩] (some (.flat [0])) none none 500 [[0]] rfl rfl rfl).1

/-! ### SED shape invariant (C8) -/

theorem exceptErrorBind {ε α β : Type} (e : ε) (f : α → Except ε β) :
    (Except.error e : Except ε α) >>= f = .error e := rfl

/-- C8 (amended): every SED entity produced by `calculate` has a frequency
axis matching the first axis of the amplitude array; when the trajectory has
at least one frame and one atom the k-axis of the amplitude array equals the
number of supplied k-vectors; on the degenerate zero-frame/zero-atom path the
call still returns a well-formed result, but its amplitude array is `(0, 0, 3)`-
shaped, so the k-axis is 0 even when k-vectors were supplied (refuting the
original claim's k-axis clause on that path, see the counterexample). -/
theorem claim_c8_shape_invariant (tr : Traj) (useDisp : Bool)
    (kPointsMags : List ℝ) (kVectors : List Vec3) (bIdx : Option BasisIdx)
    (bTypes : Option BasisTypes) (mode : SumMode) (kGridShape : Option (ℕ × ℕ))
    (c : ℕ) (res : SEDEnt)
    (hres : calculate tr useDisp kPointsMags kVectors bIdx bTypes mode
      kGridShape c = .ok res) :
    res.freqs.length = res.sed.freqLen ∧
    (0 < tr.nFrames → 0 < tr.nAtoms → res.sed.kLen = kVectors.length) ∧
    ((tr.nFrames = 0 ∨ tr.nAtoms = 0) →
      res.sed.freqLen = 0 ∧ res.sed.kLen = 0 ∧ res.freqs = []) := by
  rw [calculate] at hres
  split_ifs at hres with hdeg
  · simp only [Except.ok.injEq] at hres
    subst hres
    exact ⟨rfl, fun h1 h2 => absurd hdeg (by omega), fun _ => ⟨rfl, rfl, rfl⟩⟩
  all_goals
    cases hg : determineGroups tr.types tr.nAtoms bIdx bTypes mode with
    | error e =>
        rw [hg, exceptErrorBind] at hres
        exact Except.noConfusion hres
    | ok groups =>
        rw [hg, exceptOkBind] at hres
        simp only at hres
        split_ifs at hres <;>
        · simp only [Except.ok.injEq] at hres
          subst hres
          refine ⟨rfl, fun _ _ => ?_, fun hdeg2 => absurd hdeg2 hdeg⟩
          simp only [SedData.kLen]
          rw [chunkList_map_flatten, List.length_map]

/-- C8 counterexample: a zero-frame trajectory with TWO supplied k-vectors
returns a well-formed empty SED whose amplitude k-axis has length 0, not 2. -/
theorem claim_c8_counterexample :
    calculate ⟨0, [], fun _ _ _ => 0, fun _ _ _ => 0, 1⟩ false []
      [⟨0,0,0⟩, ⟨1,0,0⟩] none none .coherent none 500 =
      .ok ⟨.coh 0 [], [], [], [⟨0,0,0⟩, ⟨1,0,0⟩], none, true⟩ ∧
    SedData.kLen (.coh 0 []) = 0 ∧
    ([(⟨0,0,0⟩ : Vec3), ⟨1,0,0⟩] : List Vec3).length = 2 ∧ (0 : ℕ) ≠ 2 :=
  ⟨rfl, rfl, rfl, by decide⟩

/-- C8 witness: the amended invariant applied on the degenerate zero-frame
path with no k-vectors. -/
theorem claim_c8_witness :
    (⟨.coh 0 [], [], [], [], none, true⟩ : SEDEnt).freqs.length =
      (⟨.coh 0 [], [], [], [], none, true⟩ : SEDEnt).sed.freqLen ∧
    (0 < (⟨0, [], fun _ _ _ => 0, fun _ _ _ => 0, 1⟩ : Traj).nFrames →
      0 < (⟨0, [], fun _ _ _ => 0, fun _ _ _ => 0, 1⟩ : Traj).nAtoms →
      (⟨.coh 0 [], [], [], [], none, true⟩ : SEDEnt).sed.kLen =
        ([] : List Vec3).length) ∧
    (((⟨0, [], fun _ _ _ => 0, fun _ _ _ => 0, 1⟩ : Traj).nFrames = 0 ∨
      (⟨0, [], fun _ _ _ => 0, fun _ _ _ => 0, 1⟩ : Traj).nAtoms = 0) →
      (⟨.coh 0 [], [], [], [], none, true⟩ : SEDEnt).sed.freqLen = 0 ∧
      (⟨.coh 0 [], [], [], [], none, true⟩ : SEDEnt).sed.kLen = 0 ∧
      (⟨.coh 0 [], [], [], [], none, true⟩ : SEDEnt).freqs = []) :=
  claim_c8_shape_invariant ⟨0, [], fun _ _ _ => 0, fun _ _ _ => 0, 1⟩ false [] []
    none none .coherent none 500 ⟨.coh 0 [], [], [], [], none, true⟩ rfl

/-! ### iSED rescale linearity (C9) -/

theorem isedRawWiggles_eq_zero (tr : Traj) (kd : Vec3) (kM : List ℝ)
    (kV : List Vec3) (kt wt : ℝ) (n : ℕ) (groups : List (List ℕ))
    (seds : List SEDEnt) (t a : ℕ) (ax : Fin 3) (ha : ∀ g ∈ groups, a ∉ g) :
    isedRawWiggles tr kd kM kV kt wt n groups seds t a ax = 0 := by
  unfold isedRawWiggles
  apply List.sum_eq_zero
  intro x hx
  simp only [List.mem_map] at hx
  obtain ⟨p, hp, rfl⟩ := hx
  have hg : p.1 ∈ groups := (List.mem_zip hp).1
  unfold isedGroupWiggle
  rw [if_neg (ha p.1 hg)]

theorem isedRescale_two_eq (groups : List (List ℕ)) (raw : ℕ → ℕ → Fin 3 → ℝ)
    (hzero : ∀ t a ax, (∀ g ∈ groups, a ∉ g) → raw t a ax = 0) :
    isedRescale 2 groups raw = fun t a ax => 2 * isedRescale 1 groups raw t a ax := by
  funext t a ax
  unfold isedRescale
  split_ifs with h1 h2
  · have hflat : groups.flatten = [] := by
      have := List.mergeSort_perm (groups.flatten.dedup) (· ≤ ·)
      have hd : groups.flatten.dedup = [] := by
        rw [← List.length_eq_zero, ← this.length_eq, h1]
        rfl
      rwa [List.dedup_eq_nil] at hd
    have : ∀ g ∈ groups, a ∉ g := by
      intro g hgm hag
      have : a ∈ groups.flatten := List.mem_flatten.mpr ⟨g, hgm, hag⟩
      rw [hflat] at this
      exact List.not_mem_nil a this
    rw [hzero t a ax this]
    ring
  · ring
  · have : ∀ g ∈ groups, a ∉ g := by
      intro g hgm hag
      exact h2 (List.mem_mergeSort.mpr (List.mem_dedup.mpr
        (List.mem_flatten.mpr ⟨g, hgm, hag⟩)))
    rw [hzero t a ax this]
    ring

/-- C9: for every fixed trajectory, target (k, omega), direction, grouping and
reconstruction frame count, `ised` with numeric `rescale_factor = 2.0`
produces exactly twice the reconstructed displacement field obtained with
`rescale_factor = 1.0`, elementwise (and the two calls fail identically when
either fails). -/
theorem claim_c9_rescale_linearity (tr : Traj) (useDisp : Bool) (kDirUnit : Vec3)
    (kTarget wTarget charLen : ℝ) (nk : ℕ) (bz : ℝ)
    (bIdx : Option (IsedBasis ℕ)) (bTypes : Option (IsedBasis ℤ))
    (nRecon : ℕ) (b1 b2 b3 geomA1 : Vec3) :
    isedField tr useDisp kDirUnit kTarget wTarget charLen nk bz bIdx bTypes 2
      nRecon b1 b2 b3 geomA1 =
    Except.map (fun f => fun t a ax => 2 * f t a ax)
      (isedField tr useDisp kDirUnit kTarget wTarget charLen nk bz bIdx bTypes 1
        nRecon b1 b2 b3 geomA1) := by
  rw [isedField, isedField]
  cases hg : isedGroups tr.types tr.nAtoms bIdx bTypes with
  | error e => rfl
  | ok groups =>
      rw [exceptOkBind, exceptOkBind]
      by_cases hne : groups = []
      · rw [if_pos hne, if_pos hne]
        rfl
      · rw [if_neg hne, if_neg hne]
        cases hp : sedGetKPath geomA1 b1 b2 b3 kDirUnit bz nk (some charLen) with
        | error e => rfl
        | ok pr =>
            rw [exceptOkBind, exceptOkBind]
            obtain ⟨kMags, kVecs⟩ := pr
            simp only
            cases hm : (groups.filter (fun g => ¬g = [])).mapM (fun g =>
              calculate tr useDisp kMags kVecs (some (.arr g)) none .coherent
                none 500) with
            | error e => rfl
            | ok seds =>
                rw [exceptOkBind, exceptOkBind]
                by_cases hfe : groups.filter (fun g => ¬g = []) = []
                · rw [if_pos hfe, if_pos hfe]
                  rfl
                · rw [if_neg hfe, if_neg hfe]
                  show Except.ok _ = Except.map _ (Except.ok _)
                  simp only [Except.map]
                  congr 1
                  apply isedRescale_two_eq
                  intro t a ax hout
                  apply isedRawWiggles_eq_zero
                  intro g hgm
                  exact hout g (List.mem_of_mem_filter hgm)

/-- C9 witness: the linearity theorem has no propositional hypotheses; shown
instantiated at a concrete 1-frame, 1-atom trajectory. -/
theorem claim_c9_witness :
    isedField ⟨1, [1], fun _ _ _ => 0, fun _ _ _ => 0, 1⟩ false ⟨1,0,0⟩ 0 0 1 1 1
      none none 2 4 ⟨1,0,0⟩ ⟨0,1,0⟩ ⟨0,0,1⟩ ⟨1,0,0⟩ =
    Except.map (fun f => fun t a ax => 2 * f t a ax)
      (isedField ⟨1, [1], fun _ _ _ => 0, fun _ _ _ => 0, 1⟩ false ⟨1,0,0⟩ 0 0 1 1 1
        none none 1 4 ⟨1,0,0⟩ ⟨0,1,0⟩ ⟨0,0,1⟩ ⟨1,0,0⟩) :=
  claim_c9_rescale_linearity ⟨1, [1], fun _ _ _ => 0, fun _ _ _ => 0, 1⟩ false
    ⟨1,0,0⟩ 0 0 1 1 1 none none 4 ⟨1,0,0⟩ ⟨0,1,0⟩ ⟨0,0,1⟩ ⟨1,0,0⟩

/-! ### K-path magnitude properties (C5, C6) -/

theorem linspace_length (a b : ℝ) (n : ℕ) : (linspace a b n).length = n := by
  unfold linspace
  split_ifs with h
  · simp [h]
  · simp

theorem linspace_zero_pairwise (b : ℝ) (hb : 0 ≤ b) (n : ℕ) :
    (linspace 0 b n).Pairwise (· ≤ ·) := by
  unfold linspace
  split_ifs with h
  · simp
  · rw [List.pairwise_map]
    apply (List.pairwise_lt_range n).imp
    intro i j hij
    rcases Nat.eq_zero_or_pos (n - 1) with h0 | hpos
    · simp [h0]
    · have hd : (0:ℝ) < ((n - 1 : ℕ) : ℝ) := by exact_mod_cast hpos
      have hij2 : (i:ℝ) ≤ (j:ℝ) := by exact_mod_cast hij.le
      have hmul : (b - 0) * (i:ℝ) ≤ (b - 0) * (j:ℝ) :=
        mul_le_mul_of_nonneg_left hij2 (by linarith)
      have := (div_le_div_right hd).mpr hmul
      linarith

theorem linspace_zero_head (b : ℝ) {n : ℕ} (h : 1 < n) :
    (linspace 0 b n).getD 0 0 = 0 := by
  unfold linspace
  rw [if_neg (by omega)]
  obtain ⟨m, rfl⟩ : ∃ m, n = m + 1 := ⟨n - 1, by omega⟩
  rw [List.range_succ_eq_map]
  simp

theorem linspace_zero_last (b : ℝ) {n : ℕ} (h : 1 < n) :
    (linspace 0 b n).getD (n - 1) 0 = b := by
  unfold linspace
  rw [if_neg (by omega)]
  have hlen : n - 1 < ((List.range n).map
      (fun i : ℕ => 0 + (b - 0) * (i : ℝ) / ((n - 1 : ℕ) : ℝ))).length := by
    simp
    omega
  rw [List.getD_eq_getElem _ _ hlen, List.getElem_map]
  rw [List.getElem_range]
  have hne : ((n - 1 : ℕ) : ℝ) ≠ 0 := by
    have : 0 < n - 1 := by omega
    exact_mod_cast Nat.pos_iff_ne_zero.mp this
  have hne2 : ((n : ℝ) - 1) ≠ 0 := by
    have h2 : (1 : ℝ) < (n : ℝ) := by exact_mod_cast h
    linarith
  field_simp

theorem sedRecipExtent_pos (a1 b1 b2 b3 kDir : Vec3) (lat : Option ℝ) (ext : ℝ)
    (hext : sedRecipExtent a1 b1 b2 b3 kDir lat = .ok ext) : 0 < ext := by
  unfold sedRecipExtent at hext
  by_cases h1 : lat.isNone = true ∨ lat.getD 0 ≤ 1e-6
  · rw [if_pos h1] at hext
    by_cases h2 : 1e-6 < maxProjection b1 b2 b3 kDir
    · rw [if_pos h2] at hext
      simp only [Except.ok.injEq] at hext
      subst hext
      linarith
    · rw [if_neg h2] at hext
      by_cases h3 : 1e-6 < Vec3.norm3 a1
      · rw [if_pos h3] at hext
        simp only [Except.ok.injEq] at hext
        subst hext
        exact div_pos (by positivity) (by linarith)
      · rw [if_neg h3] at hext
        exact Except.noConfusion hext
  · rw [if_neg h1] at hext
    simp only [Except.ok.injEq] at hext
    subst hext
    push_neg at h1
    exact div_pos (by positivity) (by linarith [h1.2])

/-- C6 (amended): for every non-raising `get_k_path` call with
`bz_coverage ≥ 0`, the magnitudes have length `n_k`, are non-decreasing, start
at 0 when `n_k > 1`, and end at `bz_coverage × reciprocal_extent` — EXCEPT
that for `n_k = 1` with `|bz_coverage × reciprocal_extent| ≤ 1e-8` the single
returned magnitude is 0 (the `np.isclose` fold), and for negative
`bz_coverage` the sequence is decreasing (see the counterexample). -/
theorem claim_c6_kpath_magnitudes (a1 b1 b2 b3 kDir : Vec3) (bz : ℝ) (nK : ℕ)
    (lat : Option ℝ) (ext : ℝ) (mags : List ℝ) (vecs : List Vec3)
    (hext : sedRecipExtent a1 b1 b2 b3 kDir lat = .ok ext)
    (hres : sedGetKPath a1 b1 b2 b3 kDir bz nK lat = .ok (mags, vecs))
    (hbz : 0 ≤ bz) :
    mags.length = nK ∧
    mags.Pairwise (· ≤ ·) ∧
    (1 < nK → mags.getD 0 0 = 0) ∧
    mags.getD (nK - 1) 0 =
      (if nK = 1 ∧ |bz * ext| ≤ 1e-8 then 0 else bz * ext) := by
  have hkmax : 0 ≤ bz * ext :=
    mul_nonneg hbz (le_of_lt (sedRecipExtent_pos a1 b1 b2 b3 kDir lat ext hext))
  rw [sedGetKPath, hext, exceptOkBind] at hres
  simp only at hres
  by_cases hlt : nK < 1
  · rw [if_pos hlt] at hres
    exact Except.noConfusion hres
  · rw [if_neg hlt] at hres
    by_cases hgt : 1 < nK
    · rw [if_pos hgt] at hres
      simp only [Except.ok.injEq, Prod.mk.injEq] at hres
      obtain ⟨hmags, _⟩ := hres
      subst hmags
      refine ⟨linspace_length 0 (bz * ext) nK, linspace_zero_pairwise _ hkmax nK,
        fun _ => linspace_zero_head _ hgt, ?_⟩
      rw [linspace_zero_last _ hgt, if_neg (by omega)]
    · rw [if_neg hgt] at hres
      simp only [Except.ok.injEq, Prod.mk.injEq] at hres
      obtain ⟨hmags, _⟩ := hres
      subst hmags
      have hn1 : nK = 1 := by omega
      subst hn1
      refine ⟨rfl, by simp, fun hcon => absurd hcon (by simp), ?_⟩
      simp only [Nat.sub_self, List.getD_cons_zero]
      split_ifs with hc1 hc2 <;> simp_all

theorem sedRecipExtent_some_one (a1 b1 b2 b3 kd : Vec3) :
    sedRecipExtent a1 b1 b2 b3 kd (some 1) = .ok (2 * π / 1) := by
  unfold sedRecipExtent
  rw [if_neg]
  · rfl
  · rintro (h | h)
    · simp at h
    · norm_num at h

/-- C6 counterexample: with lattice parameter 1 (reciprocal extent `2π`),
(a) `bz_coverage = -1`, `n_k = 2` yields the DECREASING magnitude list
`[0, -2π]`, and (b) `bz_coverage = 1e-9`, `n_k = 1` yields `[0]` whose last
element is not `bz_coverage × reciprocal_extent` (the `np.isclose` fold). -/
theorem claim_c6_counterexample :
    (sedGetKPath ⟨0,0,0⟩ ⟨0,0,0⟩ ⟨0,0,0⟩ ⟨0,0,0⟩ ⟨1,0,0⟩ (-1) 2 (some 1) =
      .ok ([0, -(2*π)], [⟨0,0,0⟩, ⟨-(2*π),0,0⟩]) ∧
     ¬ List.Pairwise (· ≤ ·) [(0:ℝ), -(2*π)]) ∧
    (sedGetKPath ⟨0,0,0⟩ ⟨0,0,0⟩ ⟨0,0,0⟩ ⟨0,0,0⟩ ⟨1,0,0⟩ 1e-9 1 (some 1) =
      .ok ([0], [⟨0,0,0⟩]) ∧
     (0:ℝ) ≠ 1e-9 * (2 * π / 1)) := by
  refine ⟨⟨?_, ?_⟩, ?_, ?_⟩
  · rw [sedGetKPath, sedRecipExtent_some_one, exceptOkBind]
    simp only
    rw [if_neg (by norm_num : ¬(2:ℕ) < 1), if_pos (by norm_num : (1:ℕ) < 2)]
    have hm : linspace 0 (-1 * (2 * π / 1)) 2 = [0, -(2*π)] := by
      unfold linspace
      rw [if_neg (by norm_num)]
      have : List.range 2 = [0, 1] := rfl
      rw [this]
      simp only [List.map_cons, List.map_nil, Nat.cast_zero, Nat.cast_one]
      norm_num
    rw [hm]
    simp only [Except.ok.injEq, Prod.mk.injEq, List.map_cons, List.map_nil,
      Vec3.smul, Vec3.mk.injEq]
    norm_num
  · intro hp
    rcases List.pairwise_cons.mp hp with ⟨h0, _⟩
    have := h0 (-(2*π)) (by simp)
    nlinarith [Real.pi_pos]
  · rw [sedGetKPath, sedRecipExtent_some_one, exceptOkBind]
    simp only
    rw [if_neg (by norm_num : ¬(1:ℕ) < 1), if_neg (by norm_num : ¬(1:ℕ) < 1)]
    have habs : |1e-9 * (2 * π / 1)| ≤ 1e-8 := by
      rw [abs_of_pos (by positivity)]
      have hπ : π < 3.15 := Real.pi_lt_315
      nlinarith
    rw [if_pos habs]
    simp only [Except.ok.injEq, Prod.mk.injEq, List.map_cons, List.map_nil,
      Vec3.smul, Vec3.mk.injEq]
    norm_num
  · exact ne_of_lt (by positivity)

/-- C6 witness: the amended theorem applied with lattice parameter 1,
`bz_coverage = 0`, `n_k = 2`. -/
theorem claim_c6_witness :
    (linspace 0 ((0:ℝ) * (2 * π / 1)) 2).length = 2 ∧
    (linspace 0 ((0:ℝ) * (2 * π / 1)) 2).Pairwise (· ≤ ·) ∧
    (1 < 2 → (linspace 0 ((0:ℝ) * (2 * π / 1)) 2).getD 0 0 = 0) ∧
    (linspace 0 ((0:ℝ) * (2 * π / 1)) 2).getD (2 - 1) 0 =
      (if 2 = 1 ∧ |(0:ℝ) * (2 * π / 1)| ≤ 1e-8 then 0 else (0:ℝ) * (2 * π / 1)) :=
  claim_c6_kpath_magnitudes ⟨0,0,0⟩ ⟨0,0,0⟩ ⟨0,0,0⟩ ⟨0,0,0⟩ ⟨1,0,0⟩ 0 2 (some 1)
    (2 * π / 1) (linspace 0 (0 * (2 * π / 1)) 2)
    ((linspace 0 (0 * (2 * π / 1)) 2).map (fun m => Vec3.smul m ⟨1,0,0⟩))
    (sedRecipExtent_some_one ⟨0,0,0⟩ ⟨0,0,0⟩ ⟨0,0,0⟩ ⟨0,0,0⟩ ⟨1,0,0⟩)
    (by
      rw [sedGetKPath, sedRecipExtent_some_one, exceptOkBind]
      simp only
      rw [if_neg (by norm_num : ¬(2:ℕ) < 1), if_pos (by norm_num : (1:ℕ) < 2)])
    (le_refl 0)

theorem parseDirection_validate_norm (w v : Vec3)
    (h : parseDirection.validate w = .ok v) : 1e-10 ≤ Vec3.norm3 v := by
  unfold parseDirection.validate at h
  split_ifs at h with hc
  simp only [Except.ok.injEq] at h
  subst h
  exact le_of_not_lt hc

theorem parseDirection_ok_norm (d : DirSpec) (v : Vec3)
    (h : parseDirection d = .ok v) : 1e-10 ≤ Vec3.norm3 v := by
  cases d <;> simp only [parseDirection] at h <;>
    first
      | exact parseDirection_validate_norm _ _ h
      | exact Except.noConfusion h
      | (split_ifs at h <;>
          first
            | exact parseDirection_validate_norm _ _ h
            | exact Except.noConfusion h)

theorem norm3_smul (c : ℝ) (v : Vec3) :
    Vec3.norm3 (Vec3.smul c v) = |c| * Vec3.norm3 v := by
  unfold Vec3.norm3 Vec3.smul
  rw [show (c * v.x)^2 + (c * v.y)^2 + (c * v.z)^2 =
    c^2 * (v.x^2 + v.y^2 + v.z^2) by ring]
  rw [Real.sqrt_mul (sq_nonneg c), Real.sqrt_sq_eq_abs]

theorem linspace_zero_nonneg (b : ℝ) (hb : 0 ≤ b) (n : ℕ) :
    ∀ x ∈ linspace 0 b n, 0 ≤ x := by
  intro x hx
  unfold linspace at hx
  by_cases h : n = 1
  · rw [if_pos h] at hx
    rw [List.mem_singleton.mp hx]
  · rw [if_neg h] at hx
    obtain ⟨i, _, rfl⟩ := List.mem_map.mp hx
    rw [zero_add]
    exact div_nonneg (mul_nonneg (by linarith) (Nat.cast_nonneg i))
      (Nat.cast_nonneg _)

theorem parse_e1 : parseDirection (.list3 1 0 0) = .ok ⟨1, 0, 0⟩ := by
  have hn : Vec3.norm3 ⟨1, 0, 0⟩ = 1 := by
    simp [Vec3.norm3]
  rw [parseDirection]
  unfold parseDirection.validate
  rw [if_neg (by rw [hn]; norm_num)]

/-- C5 (amended): for every accepted direction specification and `n_k ≥ 1`,
provided `bz_coverage ≥ 0` and the effective lattice parameter is positive,
`get_k_path` normalizes the parsed direction to a unit vector, every returned
k-vector is its magnitude times that unit vector, and the Euclidean norm of
`k_vectors[i]` equals `k_magnitudes[i]`.  (For negative `bz_coverage` the
magnitudes are negative while norms are not, see the counterexample.) -/
theorem claim_c5_direction_normalization (a1 : Vec3) (d : DirSpec) (bz : ℝ)
    (nK : ℕ) (lat : Option ℝ) (v : Vec3) (pts : List ℝ) (vecs : List Vec3)
    (hv : parseDirection d = .ok v)
    (hres : sdaGetKPath a1 d bz nK lat = .ok (pts, vecs))
    (hbz : 0 ≤ bz) (hlat : 0 < lat.getD (Vec3.norm3 a1)) :
    Vec3.norm3 (Vec3.smul (1 / Vec3.norm3 v) v) = 1 ∧
    vecs = pts.map (fun m => Vec3.smul m (Vec3.smul (1 / Vec3.norm3 v) v)) ∧
    ∀ i, i < vecs.length → Vec3.norm3 (vecs.getD i ⟨0, 0, 0⟩) = pts.getD i 0 := by
  have hnv : 0 < Vec3.norm3 v :=
    lt_of_lt_of_le (by norm_num) (parseDirection_ok_norm d v hv)
  have hunit : Vec3.norm3 (Vec3.smul (1 / Vec3.norm3 v) v) = 1 := by
    rw [norm3_smul, abs_of_pos (by positivity), one_div,
      inv_mul_cancel₀ (ne_of_gt hnv)]
  rw [sdaGetKPath, hv, exceptOkBind] at hres
  simp only [Except.ok.injEq, Prod.mk.injEq] at hres
  obtain ⟨hpts, hvecs⟩ := hres
  have hkmax : 0 ≤ bz * (2 * π / lat.getD (Vec3.norm3 a1)) :=
    mul_nonneg hbz (div_nonneg (by positivity) hlat.le)
  subst hpts
  subst hvecs
  refine ⟨hunit, rfl, fun i hi => ?_⟩
  rw [List.length_map] at hi
  rw [List.getD_eq_getElem _ _ (by simpa using hi), List.getElem_map,
    List.getD_eq_getElem _ _ hi]
  rw [norm3_smul, hunit, mul_one]
  exact abs_of_nonneg (linspace_zero_nonneg _ hkmax nK _ (List.getElem_mem hi))

/-- C5 counterexample: `direction = [1,0,0]`, `bz_coverage = -1`, `n_k = 2`,
`lattice_parameter = 1`: the second returned magnitude is `-2π` but the norm
of the second returned k-vector is `2π ≠ -2π`. -/
theorem claim_c5_counterexample :
    sdaGetKPath ⟨1,0,0⟩ (.list3 1 0 0) (-1) 2 (some 1) =
      .ok ([0, -(2*π)], [⟨0,0,0⟩, ⟨-(2*π),0,0⟩]) ∧
    Vec3.norm3 ⟨-(2*π),0,0⟩ = 2 * π ∧
    (2 * π : ℝ) ≠ -(2*π) := by
  have hn : Vec3.norm3 ⟨1, 0, 0⟩ = 1 := by
    simp [Vec3.norm3]
  refine ⟨?_, ?_, ?_⟩
  · rw [sdaGetKPath, parse_e1, exceptOkBind]
    simp only
    have hm : linspace 0 (-1 * (2 * π / (some (1:ℝ)).getD (Vec3.norm3 ⟨1,0,0⟩))) 2 =
        [0, -(2*π)] := by
      unfold linspace
      rw [if_neg (by norm_num)]
      have hr : List.range 2 = [0, 1] := rfl
      rw [hr]
      simp only [List.map_cons, List.map_nil, Nat.cast_zero, Nat.cast_one,
        Option.getD_some]
      norm_num
    rw [hm]
    simp only [Except.ok.injEq, Prod.mk.injEq, List.map_cons, List.map_nil,
      Vec3.smul, Vec3.mk.injEq, hn]
    norm_num
  · unfold Vec3.norm3
    rw [show (-(2*π))^2 + (0:ℝ)^2 + (0:ℝ)^2 = (2*π)^2 by ring]
    exact Real.sqrt_sq (by positivity)
  · intro hcon
    nlinarith [Real.pi_pos]

/-- C5 witness: the amended theorem applied with direction `[1,0,0]`,
`bz_coverage = 0`, `n_k = 1`, lattice parameter 1; the normalized direction
has unit norm. -/
theorem claim_c5_witness :
    Vec3.norm3 (Vec3.smul (1 / Vec3.norm3 ⟨1,0,0⟩) ⟨1,0,0⟩) = 1 :=
  (claim_c5_direction_normalization ⟨1,0,0⟩ (.list3 1 0 0) 0 1 (some 1) ⟨1,0,0⟩
    (linspace 0 ((0:ℝ) * (2 * π / (some (1:ℝ)).getD (Vec3.norm3 ⟨1,0,0⟩))) 1)
    ((linspace 0 ((0:ℝ) * (2 * π / (some (1:ℝ)).getD (Vec3.norm3 ⟨1,0,0⟩))) 1).map
      (fun m => Vec3.smul m (Vec3.smul (1 / Vec3.norm3 ⟨1,0,0⟩) ⟨1,0,0⟩)))
    parse_e1
    (by rw [sdaGetKPath, parse_e1, exceptOkBind])
    (le_refl 0)
    (by simp)).1
